import Mathlib

/-!
Verification of the mrexo Bernstein-polynomial density-estimation core
(files `mrexo/mle_utils.py`, `mrexo/mle_utils_nd.py`, `mrexo/predict.py`).

Shallow embedding conventions:
* Python floats are modelled as `Option ℚ`; `none` stands for a non-finite
  value (NaN).  All arithmetic operations propagate `none`, matching IEEE
  NaN propagation in numpy.  Overflow/underflow and infinities play no role
  in the verified claims, so rationals suffice.
* External numeric collaborators (scipy's `quad` quadrature, `np.log10`,
  `brentq` root finding, the random generator) are modelled as explicit
  function parameters ("oracles"): the code hands them their inputs and
  consumes whatever value they return, which is exactly how the Python
  call sites behave.
* `scipy.stats.beta.pdf` / `beta.cdf` for positive integer shape
  parameters are embedded through their closed forms (the handwritten
  `_beta_pdf` in `mle_utils_nd.py` itself uses exact integer factorials;
  `beta.cdf` for integer shapes is the binomial tail, clamped to [0,1]
  exactly as scipy clamps outside the support).
-/

namespace MRexo

/-- A Python/numpy float: `none` is NaN (or another non-finite value). -/
abbrev QNan : Type := Option ℚ

/-- NaN-propagating addition (numpy `+`). -/
def nadd (x y : QNan) : QNan := x.bind (fun a => y.map (fun b => a + b))

/-- NaN-propagating subtraction (numpy `-`). -/
def nsub (x y : QNan) : QNan := x.bind (fun a => y.map (fun b => a - b))

/-- NaN-propagating multiplication (numpy `*`). -/
def nmul (x y : QNan) : QNan := x.bind (fun a => y.map (fun b => a * b))

/-- NaN-propagating division (numpy `/`).  Division by exact zero yields a
non-finite value (`none`); the code paths we verify never divide by an
exact zero because `cond_density_quantile` replaces a zero denominator by
NaN first. -/
def ndiv (x y : QNan) : QNan :=
  x.bind (fun a => y.bind (fun b => if b = 0 then none else some (a / b)))

/-- `np.sum` over a 1-D array: NaN-propagating sum. -/
def nsum (xs : List QNan) : QNan := xs.foldr nadd (some 0)

/-- Elementwise product of two equal-length 1-D arrays (numpy `*`). -/
def nzipMul (xs ys : List QNan) : List QNan := List.zipWith nmul xs ys

/-- `np.kron` of two 1-D arrays. -/
def nKron (xs ys : List QNan) : List QNan :=
  xs.flatMap (fun x => ys.map (fun y => nmul x y))

/-- `np.kron` of two 1-D arrays of finite values. -/
def qKron (xs ys : List ℚ) : List ℚ :=
  xs.flatMap (fun x => ys.map (fun y => x * y))

/-- `np.max` of a 1-D integer array (used for `np.max(deg_vec)`). -/
def listMax (xs : List ℕ) : ℕ := xs.foldr max 0

/-- `scipy.math.factorial(a-1)`: the `_int_gamma` helper of
`mle_utils_nd.py`, Γ(a) for a positive integer `a` via the exact integer
factorial. -/
def _int_gamma (a : ℕ) : ℚ := (Nat.factorial (a - 1) : ℚ)

/-- The handwritten `_beta_pdf(x, a, b)` of `mle_utils_nd.py`:
`Γ(a+b)·x^(a-1)·(1-x)^(b-1)/(Γ(a)·Γ(b))` with exact integer factorials.
Note that, unlike `scipy.stats.beta.pdf`, it does not clamp `x` to the
support [0,1]. -/
def _beta_pdf (x : ℚ) (a b : ℕ) : ℚ :=
  (_int_gamma (a + b) * x ^ (a - 1) * (1 - x) ^ (b - 1)) / (_int_gamma a * _int_gamma b)

/-- `scipy.stats.beta.pdf(x, a, b)` for positive integer shapes: the same
closed form as `_beta_pdf`, but zero outside the support [0,1], as scipy
evaluates it.  Used by the 2-D `find_indv_pdf` in `mle_utils.py`. -/
def beta_pdf_scipy (x : ℚ) (a b : ℕ) : ℚ :=
  if x < 0 ∨ 1 < x then 0 else _beta_pdf x a b

/-- The binomial-tail core of the regularized incomplete beta function:
for integer shapes `a, b ≥ 1` and `0 < x < 1`,
`I_x(a, b) = ∑_{j=a}^{a+b-1} C(a+b-1, j) x^j (1-x)^(a+b-1-j)`. -/
def betaCdfCore (a b : ℕ) (x : ℚ) : ℚ :=
  ∑ j ∈ Finset.Icc a (a + b - 1),
    ((a + b - 1).choose j : ℚ) * x ^ j * (1 - x) ^ (a + b - 1 - j)

/-- `scipy.stats.beta.cdf(x, a, b)` for positive integer shapes: clamped
to 0 below the support and 1 above it, the exact binomial-tail closed form
in between. -/
def beta_cdf (x : ℚ) (a b : ℕ) : ℚ :=
  if x ≤ 0 then 0 else if 1 ≤ x then 1 else betaCdfCore a b x

/-- The external quadrature collaborator: `scipy.integrate.quad` applied to
`_pdfnorm_beta`.  Arguments are those `integrate_function` forwards:
observed value, its (possibly NaN) standard deviation, `deg`, the basis
index `degree`, `a_max`, `a_min`, the `Log` flag and the absolute
tolerance.  The value returned is whatever the numeric integrator
produces. -/
abbrev QuadOracle : Type :=
  ℚ → QNan → ℕ → ℕ → ℚ → ℚ → Bool → ℚ → QNan

/-- The external `np.log10` on a scalar, as an oracle (its exact value is
transcendental; the embedding only forwards it). -/
abbrev Log10Oracle : Type := ℚ → QNan

/-- `integrate_function` of `mle_utils_nd.py` (and of `mle_utils.py`):
it only packages its arguments for the external quadrature. -/
def integrate_function (quadO : QuadOracle) (data : ℚ) (data_std : QNan)
    (deg degree : ℕ) (a_max a_min : ℚ) (Log : Bool) (abs_tol : ℚ) : QNan :=
  quadO data data_std deg degree a_max a_min Log abs_tol

/-- `_find_indv_pdf` of `mle_utils_nd.py`.  The branch test is
`np.isnan(a_std)` (`a_std = none`).  In the closed-form branch the code
reuses the name `a_std` for the rescaled abscissa
`(a - a_min)/(a_max - a_min)` (`(log10(a) - a_min)/(a_max - a_min)` when
`Log`), then evaluates `_beta_pdf(·, d, deg-d+1)/(a_max - a_min)` at each
`d` of `deg_vec`; otherwise it integrates via `integrate_function`. -/
def _find_indv_pdf (quadO : QuadOracle) (log10O : Log10Oracle)
    (a : ℚ) (deg : ℕ) (deg_vec : List ℕ) (a_max a_min : ℚ)
    (a_std : QNan) (abs_tol : ℚ) (Log : Bool) : List QNan :=
  if a_std = none then
    let x : QNan :=
      if Log then (log10O a).map (fun l => (l - a_min) / (a_max - a_min))
      else some ((a - a_min) / (a_max - a_min))
    deg_vec.map (fun d => x.map (fun t => _beta_pdf t d (deg - d + 1) / (a_max - a_min)))
  else
    deg_vec.map (fun d => integrate_function quadO a a_std deg d a_max a_min Log abs_tol)

/-- `find_indv_pdf` of `mle_utils.py` (2-D code path).  The branch test is
`x_std == None`: `x_std` is `none` only when the argument was absent; a
supplied value — even NaN — is `some s` and goes to the integration
branch.  The closed-form branch uses `scipy.stats.beta.pdf` and ignores
`Log`. -/
def find_indv_pdf (quadO : QuadOracle)
    (x : ℚ) (deg : ℕ) (deg_vec : List ℕ) (x_max x_min : ℚ)
    (x_std : Option QNan) (abs_tol : ℚ) (Log : Bool) : List QNan :=
  match x_std with
  | none =>
      deg_vec.map (fun d =>
        some (beta_pdf_scipy ((x - x_min) / (x_max - x_min)) d (deg - d + 1) / (x_max - x_min)))
  | some s =>
      deg_vec.map (fun d => integrate_function quadO x s deg d x_max x_min Log abs_tol)

/-- The basis vector of the conditioning value inside
`cond_density_quantile` (`mle_utils_nd.py`): the call
`_find_indv_pdf(a=a, deg=deg, deg_vec=deg_vec, a_max=a_max, a_min=a_min,
a_std=a_std, abs_tol=abs_tol, Log=False)`. -/
def cond_a_beta_indv (quadO : QuadOracle) (log10O : Log10Oracle)
    (a : ℚ) (deg : ℕ) (deg_vec : List ℕ) (a_max a_min : ℚ)
    (a_std : QNan) (abs_tol : ℚ) : List QNan :=
  _find_indv_pdf quadO log10O a deg deg_vec a_max a_min a_std abs_tol false

/-- The marginal denominator of `cond_density_quantile` before the
zero-to-NaN substitution:
`np.sum(w_hat * np.kron(np.repeat(1, np.max(deg_vec)), a_beta_indv))`
(Equation 10b of Ning et al. 2018). -/
def cond_denominator_raw (quadO : QuadOracle) (log10O : Log10Oracle)
    (a : ℚ) (deg : ℕ) (deg_vec : List ℕ) (a_max a_min : ℚ)
    (a_std : QNan) (abs_tol : ℚ) (w_hat : List QNan) : QNan :=
  nsum (nzipMul w_hat
    (nKron (List.replicate (listMax deg_vec) (some 1))
      (cond_a_beta_indv quadO log10O a deg deg_vec a_max a_min a_std abs_tol)))

/-- The inner closure `pbeta_conditional_density(j)` of
`cond_density_quantile`: the conditional CDF whose roots `brentq`
computes.  The closure's captured variables are passed explicitly. -/
def pbeta_conditional_density (w_hat a_beta_indv : List QNan)
    (deg : ℕ) (deg_vec : List ℕ) (b_max b_min : ℚ)
    (denominator : QNan) (j : ℚ) : QNan :=
  ndiv
    (nsum (nzipMul w_hat
      (nKron (deg_vec.map (fun d => some (beta_cdf ((j - b_min) / (b_max - b_min)) d (deg - d + 1))))
        a_beta_indv)))
    denominator

/-- The outputs of `cond_density_quantile` relevant to the claims: the
conditional mean, variance and denominator, the conditioning basis vector,
and the conditional CDF handed to the external `brentq` root finder (the
returned quantile list is `brentq` applied to `fun x => pbeta x - q` over
`[b_min, b_max]`). -/
structure CondResult where
  mean : QNan
  var : QNan
  denominator : QNan
  a_beta_indv : List QNan
  pbeta : ℚ → QNan

/-- `cond_density_quantile` of `mle_utils_nd.py` (the numeric core; the
quantile step is represented by the `pbeta` field, see `CondResult`).
Mirrors the source line by line: basis vector, Kronecker expansion,
denominator with the `denominator == 0 → NaN` substitution, closed-form
per-basis means `deg_vec·(b_max-b_min)/(deg+1) + b_min` and variances,
both normalized by the denominator. -/
def cond_density_quantile (quadO : QuadOracle) (log10O : Log10Oracle)
    (a : ℚ) (a_max a_min b_max b_min : ℚ) (deg : ℕ) (deg_vec : List ℕ)
    (w_hat : List QNan) (a_std : QNan) (abs_tol : ℚ) : CondResult :=
  let a_beta_indv := cond_a_beta_indv quadO log10O a deg deg_vec a_max a_min a_std abs_tol
  let denominator0 :=
    cond_denominator_raw quadO log10O a deg deg_vec a_max a_min a_std abs_tol w_hat
  let denominator := if denominator0 = some 0 then none else denominator0
  let mean_beta_indv : List QNan :=
    deg_vec.map (fun d => some ((d * (b_max - b_min) / (deg + 1)) + b_min))
  let mean := ndiv (nsum (nzipMul w_hat (nKron mean_beta_indv a_beta_indv))) denominator
  let var_beta_indv : List QNan :=
    deg_vec.map (fun d =>
      some (d * (deg - d + 1 : ℕ) * (b_max - b_min) ^ 2 / ((deg + 2) * (deg + 1) ^ 2)))
  let var := ndiv (nsum (nzipMul w_hat (nKron var_beta_indv a_beta_indv))) denominator
  { mean := mean
    var := var
    denominator := denominator
    a_beta_indv := a_beta_indv
    pbeta := pbeta_conditional_density w_hat a_beta_indv deg deg_vec b_max b_min denominator }

/-- First post-processing assignment of `calc_C_matrix`:
`C_pdf[C_pdf == 0] = 1e-300`. -/
def floorZeroEntry (x : QNan) : QNan :=
  if x = some 0 then some (1 / 10 ^ 300) else x

/-- Second post-processing assignment of `calc_C_matrix`:
`C_pdf[np.where(np.isnan(C_pdf))] = 1e-300`. -/
def floorNanEntry (x : QNan) : QNan :=
  if x = none then some (1 / 10 ^ 300) else x

/-- The flooring post-processing of `calc_C_matrix` (both files): zeros
first, then NaNs, elementwise over the whole matrix. -/
def floorCMatrix (m : List (List QNan)) : List (List QNan) :=
  (m.map (fun row => row.map floorZeroEntry)).map (fun row => row.map floorNanEntry)

/-- `np.ndarray.T` for a rectangular matrix whose rows all have length
`K`: row `j` of the transpose collects entry `j` of every row. -/
def transposeRect (K : ℕ) (m : List (List QNan)) : List (List QNan) :=
  (List.range K).map (fun j => m.map (fun row => row.getD j (some 0)))

/-- One row of the pre-transpose `C_pdf` of `calc_C_matrix`
(`mle_utils_nd.py`): for observation `i`, fold
`kron_temp = np.kron(indv_pdf_per_dim[dim][i,:], kron_temp)` over the
dimensions, starting from the scalar 1; the per-dimension vector is
`_find_indv_pdf` with `deg_vec = np.arange(1, deg-1)`. -/
def C_row (quadO : QuadOracle) (log10O : Log10Oracle)
    (ndim_data : List (List ℚ)) (ndim_sigma : List (List QNan))
    (ndim_bounds : List (ℚ × ℚ)) (deg_per_dim : List ℕ)
    (abs_tol : ℚ) (Log : Bool) (i : ℕ) : List QNan :=
  (List.range deg_per_dim.length).foldl
    (fun kron_temp dim =>
      nKron
        (_find_indv_pdf quadO log10O
          ((ndim_data.getD dim []).getD i 0)
          (deg_per_dim.getD dim 0)
          (List.range' 1 (deg_per_dim.getD dim 0 - 2))
          (ndim_bounds.getD dim (0, 0)).2
          (ndim_bounds.getD dim (0, 0)).1
          ((ndim_sigma.getD dim []).getD i none)
          abs_tol Log)
        kron_temp)
    [some 1]

/-- `K = ∏ (deg_d - 2)`: the `deg_product` of `calc_C_matrix`
(`mle_utils_nd.py`). -/
def deg_product (deg_per_dim : List ℕ) : ℕ :=
  (deg_per_dim.map (fun d => d - 2)).prod

/-- `calc_C_matrix` of `mle_utils_nd.py`: stack one `C_row` per
observation, transpose, then floor zeros and NaNs to 1e-300. -/
def calc_C_matrix (quadO : QuadOracle) (log10O : Log10Oracle)
    (n : ℕ) (ndim_data : List (List ℚ)) (ndim_sigma : List (List QNan))
    (ndim_bounds : List (ℚ × ℚ)) (deg_per_dim : List ℕ)
    (abs_tol : ℚ) (Log : Bool) : List (List QNan) :=
  floorCMatrix
    (transposeRect (deg_product deg_per_dim)
      ((List.range n).map
        (C_row quadO log10O ndim_data ndim_sigma ndim_bounds deg_per_dim abs_tol Log)))

/-- `calc_C_matrix` of `mle_utils.py` (2-D code path), in its
`Mass_sigma is not None` branch — the branch every caller exercises (the
`None` branch feeds whole arrays to `find_indv_pdf` and is dead in the
repository; it is not needed by any claim).  It uses the full
`deg_vec = np.arange(1, deg+1)`, i.e. `deg` basis functions per
dimension, so rows `C_pdf[i,:] = np.kron(M_indv_pdf[i], R_indv_pdf[i])`
have length `deg**2`; then transpose and floor. -/
def calc_C_matrix_2d (quadO : QuadOracle)
    (n : ℕ) (deg : ℕ) (M : List ℚ) (Mass_sigma : List QNan)
    (Mass_max Mass_min : ℚ) (R : List ℚ) (Radius_sigma : List QNan)
    (Radius_max Radius_min : ℚ) (abs_tol : ℚ) (Log : Bool) : List (List QNan) :=
  floorCMatrix
    (transposeRect (deg * deg)
      ((List.range n).map (fun i =>
        nKron
          (find_indv_pdf quadO (M.getD i 0) deg (List.range' 1 deg)
            Mass_max Mass_min (some (Mass_sigma.getD i none)) abs_tol Log)
          (find_indv_pdf quadO (R.getD i 0) deg (List.range' 1 deg)
            Radius_max Radius_min (some (Radius_sigma.getD i none)) abs_tol Log))))

/-- Row-major flattened position of a multi-index `idx` in an array of
shape `shape` (numpy's C order, as used by `np.reshape` and
`np.ndarray.flatten`). -/
def flatIdx : List ℕ → List ℕ → ℕ
  | _, [] => 0
  | [], _ => 0
  | _ :: ss, i :: is => i * ss.prod + flatIdx ss is

/-- Inverse of `flatIdx`: the multi-index of flat position `p` in an array
of shape `shape` (row-major). -/
def unflatIdx : List ℕ → ℕ → List ℕ
  | [], _ => []
  | _ :: ss, p => (p / ss.prod) :: unflatIdx ss (p % ss.prod)

/-- Membership of a multi-index in the region selected by
`[slice(1,-1) for i in range(ndim)]` on an array of shape `deg`:
coordinate `k` must satisfy `1 ≤ idx_k ≤ deg_k - 2`. -/
def isInteriorIdx (deg idx : List ℕ) : Bool :=
  idx.length == deg.length &&
    (List.range deg.length).all
      (fun k => 1 ≤ idx.getD k 0 && idx.getD k 0 + 2 ≤ deg.getD k 0)

/-- The padded weight hypercube of `MLE_fit` (`mle_utils_nd.py`), as a
multi-index lookup.  The source builds it by
`w_sq = np.reshape(unpadded_weight, np.array(deg_per_dim)-2)`,
`w_sq_padded = np.zeros(deg_per_dim)`, then block-assigning
`w_sq_padded[[slice(1,-1)]*ndim] = w_sq`; so a position inside the
interior slab holds the corresponding (row-major reshaped) entry of the
unpadded vector and every other position holds the initial zero. -/
def w_sq_padded (deg_per_dim : List ℕ) (unpadded_weight : List ℚ)
    (idx : List ℕ) : ℚ :=
  if isInteriorIdx deg_per_dim idx then
    unpadded_weight.getD
      (flatIdx (deg_per_dim.map (fun d => d - 2)) (idx.map (fun i => i - 1))) 0
  else 0

/-- `w_hat = w_sq_padded.flatten()` of `MLE_fit`: the padded hypercube
read off in row-major order. -/
def w_hat_of (deg_per_dim : List ℕ) (unpadded_weight : List ℚ) : List ℚ :=
  (List.range deg_per_dim.prod).map
    (fun p => w_sq_padded deg_per_dim unpadded_weight (unflatIdx deg_per_dim p))

/-- An `np.ndarray` of rationals with dynamic rank: a shape and an entry
lookup by multi-index. -/
structure Tensor where
  shape : List ℕ
  entry : List ℕ → ℚ

/-- `TensorMultiplication(A, B)` of `mle_utils_nd.py` with
`Subscripts=None`: `np.einsum` on the generated subscript string, which
shares the last index letter of `A` with the first index letter of `B`
and outputs all remaining letters in order — i.e. the trailing axis of
`A` is contracted against the leading axis of `B`:
`C[i,...,l,...] = ∑_k A[i,...,k] * B[k,l,...]`.  The result keeps every
surviving axis (einsum does not drop axes of size 1; only a full
contraction yields a rank-0 result). -/
def TensorMultiplication (A B : Tensor) : Tensor where
  shape := A.shape.dropLast ++ B.shape.tail
  entry := fun idx =>
    ∑ t ∈ Finset.range (B.shape.headD 0),
      A.entry (idx.take (A.shape.length - 1) ++ [t]) *
        B.entry (t :: idx.drop (A.shape.length - 1))

/-- The symmetric per-point uncertainty of `InputData`
(`mle_utils_nd.py`):
`np.average([np.abs(sigmaL), np.abs(sigmaU)], axis=0)`. -/
def ndim_sigma_avg (sigmaL sigmaU : List ℚ) : List ℚ :=
  List.zipWith (fun l u => (|l| + |u|) / 2) sigmaL sigmaU

/-- `np.min` of a nonempty 1-D array. -/
def listQMin : List ℚ → ℚ
  | [] => 0
  | h :: t => t.foldl min h

/-- `np.max` of a nonempty 1-D array. -/
def listQMax : List ℚ → ℚ
  | [] => 0
  | h :: t => t.foldl max h

/-- `np.log10` on a scalar: NaN (here also standing for `-inf` at zero)
on a nonpositive argument, the true base-10 logarithm on a positive
one. -/
noncomputable def np_log10 (q : ℚ) : Option ℝ :=
  if q ≤ 0 then none else some (Real.logb 10 (q : ℝ))

/-- The lower bound computed by `InputData` (`mle_utils_nd.py`) for one
dimension: a finite supplied `Min` is used unchanged; otherwise
`np.log10(0.9 * np.min(np.abs(data - sigma)))` — note the `np.abs`
around `data - sigma` before the minimum. -/
noncomputable def InputData_Min (providedMin : QNan)
    (data sigma : List ℚ) : Option ℝ :=
  match providedMin with
  | some m => some (m : ℝ)
  | none => np_log10 ((9 / 10) * listQMin (List.zipWith (fun x s => |x - s|) data sigma))

/-- The lower bound as the specification words it:
`log10(0.9 × min(value − uncertainty))`, with no absolute value. -/
noncomputable def InputData_Min_claim (providedMin : QNan)
    (data sigma : List ℚ) : Option ℝ :=
  match providedMin with
  | some m => some (m : ℝ)
  | none => np_log10 ((9 / 10) * listQMin (List.zipWith (fun x s => x - s) data sigma))

/-- The upper bound computed by `InputData` for one dimension: a finite
supplied `Max` is used unchanged; otherwise
`np.log10(1.1 * np.max(data + sigma))`. -/
noncomputable def InputData_Max (providedMax : QNan)
    (data sigma : List ℚ) : Option ℝ :=
  match providedMax with
  | some m => some (m : ℝ)
  | none => np_log10 ((11 / 10) * listQMax (List.zipWith (fun x s => x + s) data sigma))

/-- The marginal denominator of the 2-D `cond_density_quantile`
(`mle_utils.py`) before the zero-to-NaN substitution:
`np.sum(w_hat * np.kron(np.repeat(1, deg), y_beta_indv))`. -/
def cond_denominator_raw_2d (quadO : QuadOracle)
    (y : ℚ) (y_max y_min : ℚ) (deg : ℕ)
    (w_hat : List QNan) (y_std : Option QNan) (abs_tol : ℚ) : QNan :=
  nsum (nzipMul w_hat
    (nKron (List.replicate deg (some 1))
      (find_indv_pdf quadO y deg (List.range' 1 deg) y_max y_min y_std abs_tol false)))

/-- `cond_density_quantile` of `mle_utils.py` (2-D code path).  Same
numeric core as the N-d version but with `deg_vec = np.arange(1, deg+1)`
computed internally, the 2-D `find_indv_pdf` (whose absent/NaN branch
test is `x_std == None`), and `np.repeat(1, deg)` in the Kronecker
expansion of the denominator. -/
def cond_density_quantile_2d (quadO : QuadOracle)
    (y : ℚ) (y_max y_min x_max x_min : ℚ) (deg : ℕ)
    (w_hat : List QNan) (y_std : Option QNan) (abs_tol : ℚ) : CondResult :=
  let deg_vec := List.range' 1 deg
  let y_beta_indv := find_indv_pdf quadO y deg deg_vec y_max y_min y_std abs_tol false
  let denominator0 := cond_denominator_raw_2d quadO y y_max y_min deg w_hat y_std abs_tol
  let denominator := if denominator0 = some 0 then none else denominator0
  let mean_beta_indv : List QNan :=
    deg_vec.map (fun d => some ((d * (x_max - x_min) / (deg + 1)) + x_min))
  let mean := ndiv (nsum (nzipMul w_hat (nKron mean_beta_indv y_beta_indv))) denominator
  let var_beta_indv : List QNan :=
    deg_vec.map (fun d =>
      some (d * (deg - d + 1 : ℕ) * (x_max - x_min) ^ 2 / ((deg + 2) * (deg + 1) ^ 2)))
  let var := ndiv (nsum (nzipMul w_hat (nKron var_beta_indv y_beta_indv))) denominator
  { mean := mean
    var := var
    denominator := denominator
    a_beta_indv := y_beta_indv
    pbeta := pbeta_conditional_density w_hat y_beta_indv deg deg_vec x_max x_min denominator }

/-- Return value of `predict_m_given_r` (`predict.py`): either the bare
integer `0` returned early on a length mismatch, or the assembled list of
outputs. -/
inductive PredictResult where
  | retZero : PredictResult
  | outputs : List QNan → List QNan → PredictResult
deriving DecidableEq

/-- The `posterior_sample == True` branch of `predict_m_given_r`
(`predict.py`).  `log10O'` models the elementwise `np.log10` used when
`islog` is false, `rand` the `np.random.random()` draws, and `rootO` the
external `brentq` inside the 2-D `cond_density_quantile` (only the
conditional-CDF argument handed to it matters here); `pow10O` models the
final `10**x` conversion.  If the lengths of `logRadius` and
`Radius_sigma` differ the function prints a warning and returns the
integer 0 before any conditional-density work. -/
def predict_m_given_r_posterior (quadO : QuadOracle)
    (log10O' : ℚ → ℚ) (pow10O : QNan → QNan) (rand : ℕ → ℚ)
    (rootO : (ℚ → QNan) → ℚ → QNan)
    (Radius : List ℚ) (weights_mle : List QNan) (Radius_sigma : List QNan)
    (islog : Bool) (Radius_min Radius_max Mass_min Mass_max : ℚ)
    (abs_tol : ℚ) : PredictResult :=
  let degrees := Nat.sqrt weights_mle.length
  let logRadius := if islog then Radius else Radius.map log10O'
  if logRadius.length ≠ Radius_sigma.length then PredictResult.retZero
  else
    let results := fun i =>
      cond_density_quantile_2d quadO (logRadius.getD i 0)
        Radius_max Radius_min Mass_max Mass_min degrees
        weights_mle (some (Radius_sigma.getD i none)) abs_tol
    let mean_sample := (List.range Radius.length).map (fun i => (results i).mean)
    let random_quantile := (List.range Radius.length).map
      (fun i => rootO (fun x => nsub ((results i).pbeta x) (some (rand i))) (rand i))
    if islog then PredictResult.outputs mean_sample random_quantile
    else PredictResult.outputs (mean_sample.map pow10O) (random_quantile.map pow10O)

/-! ### General helper lemmas -/

theorem getD_map_of_lt {α β : Type} (f : α → β) (l : List α) (n : ℕ)
    (h : n < l.length) (d : β) (d' : α) :
    (l.map f).getD n d = f (l.getD n d') := by
  rw [List.getD_eq_getElem _ _ (by simpa using h), List.getD_eq_getElem _ _ h,
    List.getElem_map]

theorem ndiv_none (x : QNan) : ndiv x none = none := by
  cases x <;> rfl

theorem floorCMatrix_entry (m : List (List QNan)) (i j : ℕ)
    (hi : i < m.length) (hj : j < (m.getD i []).length) :
    ((floorCMatrix m).getD i []).getD j (some 0)
      = floorNanEntry (floorZeroEntry ((m.getD i []).getD j (some 0))) := by
  unfold floorCMatrix
  rw [List.map_map, getD_map_of_lt _ m i hi _ [], Function.comp_apply, List.map_map,
    getD_map_of_lt _ _ j hj _ (some 0)]
  rfl

/-! ### Claim C1 -/

/-- C1, amended.  With an absent standard deviation the 2-D
`find_indv_pdf` (`mle_utils.py`) and with a NaN standard deviation the
N-d `_find_indv_pdf` (`mle_utils_nd.py`, `Log=False`) return the
closed-form Bernstein-beta basis vector — entry `d` of the degree-index
vector equals `Beta_pdf((value-min)/(max-min); a=d, b=deg-d+1)/(max-min)`
— independently of the quadrature oracle, so the integration branch is
not taken.  A *supplied* NaN standard deviation in the 2-D
`find_indv_pdf`, however, fails the `x_std == None` test and takes the
numerical-integration branch. -/
theorem C1_basis_branch_amended :
    (∀ (quadO : QuadOracle) (log10O : Log10Oracle) (a : ℚ) (deg : ℕ)
        (deg_vec : List ℕ) (a_max a_min abs_tol : ℚ),
      _find_indv_pdf quadO log10O a deg deg_vec a_max a_min none abs_tol false
        = deg_vec.map (fun d =>
            some (_beta_pdf ((a - a_min) / (a_max - a_min)) d (deg - d + 1)
              / (a_max - a_min))))
    ∧ (∀ (quadO : QuadOracle) (x : ℚ) (deg : ℕ) (deg_vec : List ℕ)
        (x_max x_min abs_tol : ℚ) (Log : Bool),
      find_indv_pdf quadO x deg deg_vec x_max x_min none abs_tol Log
        = deg_vec.map (fun d =>
            some (beta_pdf_scipy ((x - x_min) / (x_max - x_min)) d (deg - d + 1)
              / (x_max - x_min))))
    ∧ (∀ (quadO : QuadOracle) (x : ℚ) (deg : ℕ) (deg_vec : List ℕ)
        (x_max x_min abs_tol : ℚ) (Log : Bool) (s : QNan),
      find_indv_pdf quadO x deg deg_vec x_max x_min (some s) abs_tol Log
        = deg_vec.map (fun d =>
            integrate_function quadO x s deg d x_max x_min Log abs_tol)) := by
  refine ⟨fun quadO log10O a deg deg_vec a_max a_min abs_tol => ?_,
    fun quadO x deg deg_vec x_max x_min abs_tol Log => rfl,
    fun quadO x deg deg_vec x_max x_min abs_tol Log s => rfl⟩
  simp [_find_indv_pdf]

/-- C1, counterexample to the claim as stated: the 2-D `find_indv_pdf`
with a supplied NaN standard deviation returns the quadrature outputs
(here a constant oracle returning 999), not the closed-form basis vector,
so the numerical-integration branch *is* taken for NaN uncertainty. -/
theorem C1_basis_branch_cex :
    find_indv_pdf (fun _ _ _ _ _ _ _ _ => some 999) (1/2) 3 [1, 2, 3] 1 0
        (some none) (1/10^8) false
      = [some 999, some 999, some 999]
    ∧ ([some 999, some 999, some 999] : List QNan)
      ≠ [1, 2, 3].map (fun d =>
          some (beta_pdf_scipy (((1:ℚ)/2 - 0) / (1 - 0)) d (3 - d + 1) / (1 - 0))) := by
  exact ⟨rfl, by norm_num [beta_pdf_scipy, _beta_pdf, _int_gamma, Nat.factorial]⟩

/-! ### Claim C2 -/

/-- C2.  After the flooring post-processing of `calc_C_matrix`
(`C_pdf[C_pdf == 0] = 1e-300` then
`C_pdf[np.where(np.isnan(C_pdf))] = 1e-300`), every entry that was
exactly zero or NaN equals the floor constant `1e-300`, every other
entry is unchanged, and no entry of the result is zero or NaN. -/
theorem C2_design_matrix_flooring (m : List (List QNan)) (i j : ℕ)
    (hi : i < m.length) (hj : j < (m.getD i []).length) :
    (((m.getD i []).getD j (some 0) = some 0 ∨ (m.getD i []).getD j (some 0) = none) →
      ((floorCMatrix m).getD i []).getD j (some 0) = some (1 / 10 ^ 300))
    ∧ (((m.getD i []).getD j (some 0) ≠ some 0 ∧ (m.getD i []).getD j (some 0) ≠ none) →
      ((floorCMatrix m).getD i []).getD j (some 0) = (m.getD i []).getD j (some 0))
    ∧ ((floorCMatrix m).getD i []).getD j (some 0) ≠ some 0
    ∧ ((floorCMatrix m).getD i []).getD j (some 0) ≠ none := by
  rw [floorCMatrix_entry m i j hi hj]
  have heps : (1 / 10 ^ 300 : ℚ) ≠ 0 := by positivity
  rcases hx : (m.getD i []).getD j (some 0) with _ | q
  · refine ⟨fun _ => by simp [floorZeroEntry, floorNanEntry], fun h => absurd rfl h.2,
      ?_, ?_⟩ <;> simp [floorZeroEntry, floorNanEntry, heps]
  · by_cases hq : q = 0
    · subst hq
      refine ⟨fun _ => by simp [floorZeroEntry, floorNanEntry, heps],
        fun h => absurd rfl h.1, ?_, ?_⟩ <;>
        simp [floorZeroEntry, floorNanEntry, heps]
    · refine ⟨fun h => ?_, fun _ => by simp [floorZeroEntry, floorNanEntry, hq], ?_, ?_⟩
      · rcases h with h | h
        · exact absurd (Option.some_injective _ h) hq
        · exact absurd h (by simp)
      · simp [floorZeroEntry, floorNanEntry, hq]
      · simp [floorZeroEntry, floorNanEntry, hq]

/-- C2, witness: the matrix `[[0, NaN, 5]]` floors to
`[[1e-300, 1e-300, 5]]`, with no zero or NaN left. -/
theorem C2_design_matrix_flooring_witness :
    ((floorCMatrix [[some 0, none, some 5]]).getD 0 []).getD 0 (some 0) = some (1 / 10 ^ 300)
    ∧ ((floorCMatrix [[some 0, none, some 5]]).getD 0 []).getD 1 (some 0) = some (1 / 10 ^ 300)
    ∧ ((floorCMatrix [[some 0, none, some 5]]).getD 0 []).getD 2 (some 0) = some 5
    ∧ ((floorCMatrix [[some 0, none, some 5]]).getD 0 []).getD 2 (some 0) ≠ none := by
  refine ⟨(C2_design_matrix_flooring [[some 0, none, some 5]] 0 0 (by decide) (by decide)).1
      (Or.inl rfl),
    (C2_design_matrix_flooring [[some 0, none, some 5]] 0 1 (by decide) (by decide)).1
      (Or.inr rfl),
    (C2_design_matrix_flooring [[some 0, none, some 5]] 0 2 (by decide) (by decide)).2.1
      ⟨by decide, by decide⟩,
    (C2_design_matrix_flooring [[some 0, none, some 5]] 0 2 (by decide) (by decide)).2.2.2⟩

/-! ### Claim C4 -/

/-- C4.  In `cond_density_quantile` (both the N-d and the 2-D version),
if the marginal denominator — the sum of the weights times the
Kronecker-expanded basis vector of the conditioning value — is exactly
zero, then the denominator is replaced by NaN and the returned mean and
variance are NaN; the NaN propagates instead of any division by zero. -/
theorem C4_zero_denominator_nan
    (quadO : QuadOracle) (log10O : Log10Oracle)
    (a a_max a_min b_max b_min : ℚ) (deg : ℕ) (deg_vec : List ℕ)
    (w_hat : List QNan) (a_std : QNan) (abs_tol : ℚ)
    (quadO2 : QuadOracle) (y y_max y_min x_max x_min : ℚ) (deg2 : ℕ)
    (w2 : List QNan) (y_std : Option QNan) (tol2 : ℚ)
    (hnd : cond_denominator_raw quadO log10O a deg deg_vec a_max a_min a_std abs_tol w_hat
      = some 0)
    (h2d : cond_denominator_raw_2d quadO2 y y_max y_min deg2 w2 y_std tol2 = some 0) :
    ((cond_density_quantile quadO log10O a a_max a_min b_max b_min deg deg_vec
        w_hat a_std abs_tol).denominator = none
      ∧ (cond_density_quantile quadO log10O a a_max a_min b_max b_min deg deg_vec
          w_hat a_std abs_tol).mean = none
      ∧ (cond_density_quantile quadO log10O a a_max a_min b_max b_min deg deg_vec
          w_hat a_std abs_tol).var = none)
    ∧ ((cond_density_quantile_2d quadO2 y y_max y_min x_max x_min deg2
          w2 y_std tol2).denominator = none
      ∧ (cond_density_quantile_2d quadO2 y y_max y_min x_max x_min deg2
          w2 y_std tol2).mean = none
      ∧ (cond_density_quantile_2d quadO2 y y_max y_min x_max x_min deg2
          w2 y_std tol2).var = none) := by
  constructor
  · refine ⟨?_, ?_, ?_⟩ <;> simp [cond_density_quantile, hnd, ndiv_none]
  · refine ⟨?_, ?_, ?_⟩ <;> simp [cond_density_quantile_2d, h2d, ndiv_none]

/-- C4, witness: with weight vector `[0]` and conditioning basis `[1]`
the denominator sum is exactly zero, and the returned denominator, mean
and variance are all NaN, in both versions. -/
theorem C4_zero_denominator_nan_witness :
    (cond_density_quantile (fun _ _ _ _ _ _ _ _ => some 0) (fun _ => some 0)
        (1/2) 1 0 1 0 1 [1] [some 0] none (1/10^8)).mean = none
    ∧ (cond_density_quantile_2d (fun _ _ _ _ _ _ _ _ => some 0)
        (1/2) 1 0 1 0 1 [some 0] none (1/10^8)).mean = none := by
  have h := C4_zero_denominator_nan
    (fun _ _ _ _ _ _ _ _ => some 0) (fun _ => some 0)
    (1/2) 1 0 1 0 1 [1] [some 0] none (1/10^8)
    (fun _ _ _ _ _ _ _ _ => some 0) (1/2) 1 0 1 0 1 [some 0] none (1/10^8)
    (by norm_num [cond_denominator_raw, cond_a_beta_indv, _find_indv_pdf, _beta_pdf,
      _int_gamma, Nat.factorial, listMax, nKron, nmul, nzipMul, nsum, nadd])
    (by norm_num [cond_denominator_raw_2d, find_indv_pdf, beta_pdf_scipy, _beta_pdf,
      _int_gamma, Nat.factorial, nKron, nmul, nzipMul, nsum, nadd])
  exact ⟨h.1.2.1, h.2.2.1⟩

/-! ### Claim C6 -/

/-- C6.  For degree 5, basis index `d = 3`, domain `[0,1]` and no
uncertainty (NaN std, closed-form branch), the basis evaluator
`_find_indv_pdf` at value `0.5` returns the analytic Beta(3,3) density
at `0.5`, namely `15/8 = 1.875`, exactly (hence within `1e-10`); and
`_beta_pdf(x, a, b)` with positive integer shapes equals
`Γ(a+b)/(Γ(a)Γ(b)) · x^(a-1) · (1-x)^(b-1)` computed with exact integer
factorials. -/
theorem C6_basis_closed_form_value :
    (∀ (quadO : QuadOracle) (log10O : Log10Oracle) (abs_tol : ℚ),
      (_find_indv_pdf quadO log10O (1/2) 5 [1, 2, 3, 4, 5] 1 0 none abs_tol false).getD 2 none
        = some (15/8))
    ∧ |(15 : ℚ)/8 - 1875/1000| ≤ 1/10^10
    ∧ (∀ (x : ℚ) (a b : ℕ),
        _beta_pdf x (a + 1) (b + 1)
          = ((Nat.factorial (a + b + 1) : ℚ) * x ^ a * (1 - x) ^ b)
              / (Nat.factorial a * Nat.factorial b)) := by
  refine ⟨fun quadO log10O abs_tol => ?_, by norm_num, fun x a b => ?_⟩
  · norm_num [_find_indv_pdf, _beta_pdf, _int_gamma, Nat.factorial]
  · have h1 : a + 1 + (b + 1) - 1 = a + b + 1 := by omega
    have h2 : a + 1 + (b + 1) = (a + b + 1) + 1 := by omega
    simp [_beta_pdf, _int_gamma, h2]

/-! ### Claim C7 -/

/-- C7, amended.  For a dimension record whose `Min` (resp. `Max`) bound
is absent (non-finite), `InputData` computes the lower bound as
`log10(0.9 × min(|value − uncertainty|))` — with `np.abs` applied to
`value − uncertainty` before the minimum — and the upper bound as
`log10(1.1 × max(value + uncertainty))`, where the uncertainty is the
symmetric average of the absolute lower and upper uncertainty arrays; an
explicitly provided finite bound is used unchanged. -/
theorem C7_auto_bounds_amended :
    (∀ data sigma : List ℚ, InputData_Min none data sigma
        = np_log10 ((9/10) * listQMin (List.zipWith (fun x s => |x - s|) data sigma)))
    ∧ (∀ (m : ℚ) (data sigma : List ℚ), InputData_Min (some m) data sigma = some (m : ℝ))
    ∧ (∀ data sigma : List ℚ, InputData_Max none data sigma
        = np_log10 ((11/10) * listQMax (List.zipWith (fun x s => x + s) data sigma)))
    ∧ (∀ (m : ℚ) (data sigma : List ℚ), InputData_Max (some m) data sigma = some (m : ℝ))
    ∧ (∀ sigmaL sigmaU : List ℚ, ndim_sigma_avg sigmaL sigmaU
        = List.zipWith (fun l u => (|l| + |u|) / 2) sigmaL sigmaU) :=
  ⟨fun _ _ => rfl, fun _ _ _ => rfl, fun _ _ => rfl, fun _ _ _ => rfl, fun _ _ => rfl⟩

/-- C7, counterexample to the claim as stated: for `Data = [1]`,
`SigmaLower = SigmaUpper = [2]` (so `sigma = [2]`), the code computes
`log10(0.9·min(|1−2|)) = log10(0.9)`, a finite value, whereas the
claimed formula `log10(0.9·min(1−2)) = log10(−0.9)` is NaN — the claim
omits the `np.abs` in the source. -/
theorem C7_auto_bounds_cex :
    InputData_Min none [1] (ndim_sigma_avg [2] [2])
      ≠ InputData_Min_claim none [1] (ndim_sigma_avg [2] [2]) := by
  norm_num [InputData_Min, InputData_Min_claim, ndim_sigma_avg, listQMin, np_log10]
  exact Option.some_ne_none _

/-! ### Claim C10 -/

/-- C10.  In the `posterior_sample=True` branch of `predict_m_given_r`,
if the radius array and the radius-uncertainty array have different
lengths, the function returns the bare integer 0 (after printing a
warning) — not a list of predictions and not an exception — and no
conditional-density computation is performed. -/
theorem C10_posterior_length_mismatch
    (quadO : QuadOracle) (log10O' : ℚ → ℚ) (pow10O : QNan → QNan)
    (rand : ℕ → ℚ) (rootO : (ℚ → QNan) → ℚ → QNan)
    (Radius : List ℚ) (weights_mle : List QNan) (Radius_sigma : List QNan)
    (islog : Bool) (Radius_min Radius_max Mass_min Mass_max abs_tol : ℚ)
    (h : Radius.length ≠ Radius_sigma.length) :
    predict_m_given_r_posterior quadO log10O' pow10O rand rootO
        Radius weights_mle Radius_sigma islog
        Radius_min Radius_max Mass_min Mass_max abs_tol
      = PredictResult.retZero := by
  have hlen : (if islog then Radius else Radius.map log10O').length = Radius.length := by
    cases islog <;> simp
  unfold predict_m_given_r_posterior
  rw [if_pos]
  rw [hlen]
  exact h

/-- C10, witness: a radius array of length 2 against an uncertainty
array of length 1 returns the integer 0. -/
theorem C10_posterior_length_mismatch_witness :
    predict_m_given_r_posterior (fun _ _ _ _ _ _ _ _ => some 0) (fun q => q)
        (fun x => x) (fun _ => 1/2) (fun _ _ => some 0)
        [1, 2] [some 1] [some (1/10)] true 0 1 0 1 (1/10^8)
      = PredictResult.retZero :=
  C10_posterior_length_mismatch (fun _ _ _ _ _ _ _ _ => some 0) (fun q => q)
    (fun x => x) (fun _ => 1/2) (fun _ _ => some 0)
    [1, 2] [some 1] [some (1/10)] true 0 1 0 1 (1/10^8) (by decide)

/-! ### Claim C3 -/

theorem nKron_length (xs ys : List QNan) :
    (nKron xs ys).length = xs.length * ys.length := by
  induction xs with
  | nil => simp [nKron]
  | cons h t ih => simp [nKron] at ih ⊢; simp [ih]; ring

theorem _find_indv_pdf_length (quadO : QuadOracle) (log10O : Log10Oracle)
    (a : ℚ) (deg : ℕ) (deg_vec : List ℕ) (a_max a_min : ℚ)
    (a_std : QNan) (abs_tol : ℚ) (Log : Bool) :
    (_find_indv_pdf quadO log10O a deg deg_vec a_max a_min a_std abs_tol Log).length
      = deg_vec.length := by
  unfold _find_indv_pdf
  split <;> simp

theorem foldl_nKron_length (v : ℕ → List QNan) (l : List ℕ) (acc : List QNan) :
    (l.foldl (fun kron_temp dim => nKron (v dim) kron_temp) acc).length
      = (l.map (fun dim => (v dim).length)).prod * acc.length := by
  induction l generalizing acc with
  | nil => simp
  | cons h t ih => simp [ih, nKron_length]; ring

theorem map_range_getD {α β : Type} (l : List α) (f : α → β) (d : α) :
    (List.range l.length).map (fun i => f (l.getD i d)) = l.map f := by
  apply List.ext_getElem
  · simp
  · intro i h1 h2
    simp only [List.getElem_map, List.getElem_range]
    rw [List.getD_eq_getElem _ _ (by simpa using h2)]

theorem C_row_length (quadO : QuadOracle) (log10O : Log10Oracle)
    (ndim_data : List (List ℚ)) (ndim_sigma : List (List QNan))
    (ndim_bounds : List (ℚ × ℚ)) (deg_per_dim : List ℕ)
    (abs_tol : ℚ) (Log : Bool) (i : ℕ) :
    (C_row quadO log10O ndim_data ndim_sigma ndim_bounds deg_per_dim abs_tol Log i).length
      = deg_product deg_per_dim := by
  unfold C_row deg_product
  rw [foldl_nKron_length]
  have : ∀ dim, (_find_indv_pdf quadO log10O
      ((ndim_data.getD dim []).getD i 0) (deg_per_dim.getD dim 0)
      (List.range' 1 (deg_per_dim.getD dim 0 - 2))
      (ndim_bounds.getD dim (0, 0)).2 (ndim_bounds.getD dim (0, 0)).1
      ((ndim_sigma.getD dim []).getD i none) abs_tol Log).length
        = deg_per_dim.getD dim 0 - 2 := by
    intro dim; rw [_find_indv_pdf_length, List.length_range']
  simp only [this, List.length_cons, List.length_nil, Nat.zero_add, Nat.mul_one]
  exact congrArg List.prod (map_range_getD deg_per_dim (fun d => d - 2) 0)

theorem transposeRect_length (K : ℕ) (m : List (List QNan)) :
    (transposeRect K m).length = K := by
  simp [transposeRect]

theorem transposeRect_row_length (K : ℕ) (m : List (List QNan)) (j : ℕ) (hj : j < K) :
    ((transposeRect K m).getD j []).length = m.length := by
  unfold transposeRect
  rw [getD_map_of_lt _ _ j (by simpa using hj) _ 0]
  simp

theorem transposeRect_entry (K : ℕ) (m : List (List QNan)) (i j : ℕ)
    (hj : j < K) (hi : i < m.length) :
    ((transposeRect K m).getD j []).getD i (some 0) = (m.getD i []).getD j (some 0) := by
  have hK : (List.range K).getD j 0 = j := by
    rw [List.getD_eq_getElem _ _ (by simpa using hj)]
    simp
  unfold transposeRect
  rw [getD_map_of_lt _ _ j (by simpa using hj) _ 0, hK,
    getD_map_of_lt _ _ i hi _ []]

theorem floorCMatrix_length (m : List (List QNan)) :
    (floorCMatrix m).length = m.length := by
  simp [floorCMatrix]

theorem floorCMatrix_row_length (m : List (List QNan)) (j : ℕ) (hj : j < m.length) :
    ((floorCMatrix m).getD j []).length = (m.getD j []).length := by
  unfold floorCMatrix
  rw [List.map_map, getD_map_of_lt _ m j hj _ []]
  simp

/-- C3, amended.  For the N-dimensional `calc_C_matrix`
(`mle_utils_nd.py`) the design matrix has exactly
`K = ∏ (degree_d - 2)` rows and `N` columns after the final transpose,
and entry `(j, i)` is entry `j` of the flattened tensor (Kronecker)
product of the D per-dimension basis vectors of observation `i` (the
fold `np.kron(indv_pdf_dim, kron_temp)`, so later dimensions vary
slowest), floored to `1e-300` where it was zero or NaN.  (The 2-D
`calc_C_matrix` of `mle_utils.py` instead uses all `deg` basis functions
per dimension and yields `deg²` rows — see the counterexample.) -/
theorem C3_design_matrix_shape (quadO : QuadOracle) (log10O : Log10Oracle)
    (n : ℕ) (ndim_data : List (List ℚ)) (ndim_sigma : List (List QNan))
    (ndim_bounds : List (ℚ × ℚ)) (deg_per_dim : List ℕ) (abs_tol : ℚ) (Log : Bool) :
    (calc_C_matrix quadO log10O n ndim_data ndim_sigma ndim_bounds deg_per_dim
        abs_tol Log).length = deg_product deg_per_dim
    ∧ (∀ j, j < deg_product deg_per_dim →
        ((calc_C_matrix quadO log10O n ndim_data ndim_sigma ndim_bounds deg_per_dim
            abs_tol Log).getD j []).length = n)
    ∧ (∀ i, i < n → ∀ j, j < deg_product deg_per_dim →
        ((calc_C_matrix quadO log10O n ndim_data ndim_sigma ndim_bounds deg_per_dim
            abs_tol Log).getD j []).getD i (some 0)
          = floorNanEntry (floorZeroEntry
              ((C_row quadO log10O ndim_data ndim_sigma ndim_bounds deg_per_dim
                  abs_tol Log i).getD j (some 0))))
    ∧ (∀ i, i < n →
        (C_row quadO log10O ndim_data ndim_sigma ndim_bounds deg_per_dim
            abs_tol Log i).length = deg_product deg_per_dim) := by
  set rows := (List.range n).map
    (C_row quadO log10O ndim_data ndim_sigma ndim_bounds deg_per_dim abs_tol Log) with hrows
  have hrowsl : rows.length = n := by simp [hrows]
  have hrget : ∀ i, i < n → rows.getD i [] =
      C_row quadO log10O ndim_data ndim_sigma ndim_bounds deg_per_dim abs_tol Log i := by
    intro i hi
    have hN : (List.range n).getD i 0 = i := by
      rw [List.getD_eq_getElem _ _ (by simpa using hi)]
      simp
    rw [hrows, getD_map_of_lt _ _ i (by simpa using hi) _ 0, hN]
  refine ⟨?_, ?_, ?_, ?_⟩
  · rw [calc_C_matrix, floorCMatrix_length, transposeRect_length]
  · intro j hj
    rw [calc_C_matrix, floorCMatrix_row_length _ j (by rw [transposeRect_length]; exact hj),
      transposeRect_row_length _ _ j hj, hrowsl]
  · intro i hi j hj
    rw [calc_C_matrix,
      floorCMatrix_entry _ j i (by rw [transposeRect_length]; exact hj)
        (by rw [transposeRect_row_length _ _ j hj, hrowsl]; exact hi),
      transposeRect_entry _ _ i j hj (by rw [hrowsl]; exact hi), hrget i hi]
  · intro i _
    exact C_row_length quadO log10O ndim_data ndim_sigma ndim_bounds deg_per_dim abs_tol Log i

/-- C3, witness: one observation in one dimension with degree 3 gives a
`1 × 1` design matrix (`K = 3 - 2 = 1`), whose single entry is the
floored basis value `Beta_pdf(1/2; 1, 3) = 3/4`. -/
theorem C3_design_matrix_shape_witness :
    (calc_C_matrix (fun _ _ _ _ _ _ _ _ => some 1) (fun _ => some 0) 1
        [[1/2]] [[none]] [(0, 1)] [3] (1/10^8) false).length = 1
    ∧ ((calc_C_matrix (fun _ _ _ _ _ _ _ _ => some 1) (fun _ => some 0) 1
        [[1/2]] [[none]] [(0, 1)] [3] (1/10^8) false).getD 0 []).length = 1 := by
  refine ⟨?_, ?_⟩
  · exact (C3_design_matrix_shape (fun _ _ _ _ _ _ _ _ => some 1) (fun _ => some 0) 1
      [[1/2]] [[none]] [(0, 1)] [3] (1/10^8) false).1
  · exact (C3_design_matrix_shape (fun _ _ _ _ _ _ _ _ => some 1) (fun _ => some 0) 1
      [[1/2]] [[none]] [(0, 1)] [3] (1/10^8) false).2.1 0 (by decide)

/-- C3, counterexample to the claim as stated: the 2-D `calc_C_matrix`
of `mle_utils.py` on a one-point dataset with degree 3 produces a design
matrix with `deg² = 9` rows, not `∏ (degree_d - 2) = 1`. -/
theorem C3_design_matrix_shape_cex :
    (calc_C_matrix_2d (fun _ _ _ _ _ _ _ _ => some 1) 1 3
        [1/2] [some (1/10)] 1 0 [1/2] [some (1/10)] 1 0 (1/10^8) false).length = 9
    ∧ (9 : ℕ) ≠ deg_product [3, 3] := by
  constructor
  · rw [calc_C_matrix_2d, floorCMatrix_length, transposeRect_length]
  · decide

/-! ### Claim C5 -/

theorem flatIdx_unflatIdx (shape : List ℕ) (p : ℕ) (hp : p < shape.prod) :
    flatIdx shape (unflatIdx shape p) = p := by
  induction shape generalizing p with
  | nil =>
      have : p = 0 := by simpa using Nat.lt_one_iff.mp (by simpa using hp)
      subst this
      rfl
  | cons s ss ih =>
      have ht : 0 < ss.prod := by
        rcases Nat.eq_zero_or_pos ss.prod with h0 | h0
        · rw [List.prod_cons, h0, Nat.mul_zero] at hp; omega
        · exact h0
      show (p / ss.prod) * ss.prod + flatIdx ss (unflatIdx ss (p % ss.prod)) = p
      rw [ih _ (Nat.mod_lt _ ht)]
      rw [Nat.mul_comm]
      exact Nat.div_add_mod p ss.prod

theorem unflatIdx_length (shape : List ℕ) (p : ℕ) :
    (unflatIdx shape p).length = shape.length := by
  induction shape generalizing p with
  | nil => rfl
  | cons s ss ih => simp [unflatIdx, ih]

theorem unflatIdx_lt (shape : List ℕ) (p : ℕ) (hp : p < shape.prod) :
    ∀ k, k < shape.length → (unflatIdx shape p).getD k 0 < shape.getD k 0 := by
  induction shape generalizing p with
  | nil => intro k hk; simp at hk
  | cons s ss ih =>
      intro k hk
      have ht : 0 < ss.prod := by
        rcases Nat.eq_zero_or_pos ss.prod with h0 | h0
        · rw [List.prod_cons, h0, Nat.mul_zero] at hp; omega
        · exact h0
      cases k with
      | zero =>
          show p / ss.prod < s
          rw [List.prod_cons] at hp
          exact Nat.div_lt_of_lt_mul (by rw [Nat.mul_comm]; exact hp)
      | succ k' =>
          exact ih (p % ss.prod) (Nat.mod_lt _ ht) k' (by simpa using hk)

/-- C5.  The padded weight hypercube built by `MLE_fit` has shape
`(degree_1, …, degree_D)`; every entry with some coordinate equal to `0`
or `degree_d - 1` is exactly zero; the interior block (coordinates
`1 … degree_d - 2` along each axis) equals the unpadded weight vector
reshaped row-major to shape `(degree_1 - 2, …, degree_D - 2)`; and the
flattened `w_hat` has length `∏ degree_d` with entry `p` equal to the
hypercube entry at the row-major multi-index of `p`. -/
theorem C5_weight_padding (deg_per_dim : List ℕ) (w : List ℚ) :
    (w_hat_of deg_per_dim w).length = deg_per_dim.prod
    ∧ (∀ idx : List ℕ, idx.length = deg_per_dim.length →
        (∀ k, k < deg_per_dim.length → idx.getD k 0 < deg_per_dim.getD k 0) →
        ((∃ k, k < deg_per_dim.length ∧
            (idx.getD k 0 = 0 ∨ idx.getD k 0 = deg_per_dim.getD k 0 - 1)) →
          w_sq_padded deg_per_dim w idx = 0)
        ∧ ((∀ k, k < deg_per_dim.length →
              1 ≤ idx.getD k 0 ∧ idx.getD k 0 + 2 ≤ deg_per_dim.getD k 0) →
          w_sq_padded deg_per_dim w idx
            = w.getD (flatIdx (deg_per_dim.map (fun d => d - 2))
                (idx.map (fun i => i - 1))) 0))
    ∧ (∀ p, p < deg_per_dim.prod →
        (w_hat_of deg_per_dim w).getD p 0
          = w_sq_padded deg_per_dim w (unflatIdx deg_per_dim p)) := by
  refine ⟨by simp [w_hat_of], fun idx hlen hvalid => ⟨?_, ?_⟩, fun p hp => ?_⟩
  · rintro ⟨k, hk, hbound⟩
    rw [w_sq_padded, if_neg]
    intro hint
    rw [isInteriorIdx, Bool.and_eq_true, List.all_eq_true] at hint
    have hmem : k ∈ List.range deg_per_dim.length := List.mem_range.mpr hk
    have h2 := hint.2 k hmem
    rw [Bool.and_eq_true, decide_eq_true_eq, decide_eq_true_eq] at h2
    have hv := hvalid k hk
    omega
  · intro hint
    rw [w_sq_padded, if_pos]
    rw [isInteriorIdx, Bool.and_eq_true, List.all_eq_true]
    refine ⟨by simpa using hlen, fun k hk => ?_⟩
    rw [List.mem_range] at hk
    have h := hint k hk
    rw [Bool.and_eq_true, decide_eq_true_eq, decide_eq_true_eq]
    omega
  · have hN : (List.range deg_per_dim.prod).getD p 0 = p := by
      rw [List.getD_eq_getElem _ _ (by simpa using hp)]
      simp
    rw [w_hat_of, getD_map_of_lt _ _ p (by simpa using hp) _ 0, hN]

/-- C5, witness: for degrees `[3, 3]` and unpadded weight vector `[5]`,
the padded hypercube is zero on every boundary position, carries `5` at
the interior position `[1, 1]`, and `w_hat` has length 9 with
`w_hat[4] = 5`. -/
theorem C5_weight_padding_witness :
    w_sq_padded [3, 3] [5] [0, 1] = 0
    ∧ w_sq_padded [3, 3] [5] [2, 1] = 0
    ∧ w_sq_padded [3, 3] [5] [1, 1] = 5
    ∧ (w_hat_of [3, 3] [5]).length = 9
    ∧ (w_hat_of [3, 3] [5]).getD 4 0 = w_sq_padded [3, 3] [5] (unflatIdx [3, 3] 4) := by
  refine ⟨((C5_weight_padding [3, 3] [5]).2.1 [0, 1] (by decide) (by decide)).1
      ⟨0, by decide, Or.inl rfl⟩,
    ((C5_weight_padding [3, 3] [5]).2.1 [2, 1] (by decide) (by decide)).1
      ⟨0, by decide, Or.inr rfl⟩,
    ?_, (C5_weight_padding [3, 3] [5]).1, (C5_weight_padding [3, 3] [5]).2.2 4 (by decide)⟩
  have h := ((C5_weight_padding [3, 3] [5]).2.1 [1, 1] (by decide) (by decide)).2
    (by decide)
  rw [h]
  rfl

/-! ### Claim C8 -/

/-- C8, amended.  `TensorMultiplication(A, B)` with no explicit
subscripts contracts the trailing axis of `A` against the leading axis
of `B`: the output shape is `A.shape` without its last axis followed by
`B.shape` without its first axis, and
`C[i,…,l,…] = ∑_k A[i,…,k]·B[k,l,…]`.  For rank-2 operands this is the
ordinary matrix product.  For two rank-1 operands it is the scalar dot
product — not an outer product — and a surviving axis of size 1 is kept,
not squeezed (einsum only produces a rank-0 result under full
contraction). -/
theorem C8_tensor_contraction_amended :
    (∀ A B : Tensor,
      (TensorMultiplication A B).shape = A.shape.dropLast ++ B.shape.tail)
    ∧ (∀ (A B : Tensor) (idx : List ℕ),
      (TensorMultiplication A B).entry idx
        = ∑ t ∈ Finset.range (B.shape.headD 0),
            A.entry (idx.take (A.shape.length - 1) ++ [t]) *
              B.entry (t :: idx.drop (A.shape.length - 1)))
    ∧ (∀ (k : ℕ) (f g : ℕ → ℚ),
      (TensorMultiplication ⟨[k], fun idx => f (idx.getD 0 0)⟩
          ⟨[k], fun idx => g (idx.getD 0 0)⟩).shape = []
      ∧ (TensorMultiplication ⟨[k], fun idx => f (idx.getD 0 0)⟩
          ⟨[k], fun idx => g (idx.getD 0 0)⟩).entry []
        = ∑ t ∈ Finset.range k, f t * g t)
    ∧ (∀ (m k n : ℕ) (A B : ℕ → ℕ → ℚ) (i j : ℕ),
      (TensorMultiplication ⟨[m, k], fun idx => A (idx.getD 0 0) (idx.getD 1 0)⟩
          ⟨[k, n], fun idx => B (idx.getD 0 0) (idx.getD 1 0)⟩).entry [i, j]
        = ∑ t ∈ Finset.range k, A i t * B t j)
    ∧ (∀ (k : ℕ) (f : ℕ → ℕ → ℚ) (g : ℕ → ℚ),
      (TensorMultiplication ⟨[1, k], fun idx => f (idx.getD 0 0) (idx.getD 1 0)⟩
          ⟨[k], fun idx => g (idx.getD 0 0)⟩).shape = [1]) := by
  refine ⟨fun A B => rfl, fun A B idx => rfl, fun k f g => ⟨rfl, ?_⟩,
    fun m k n A B i j => ?_, fun k f g => rfl⟩
  · rfl
  · rfl

/-- C8, counterexample to the claim as stated: on the rank-1 operands
`[1, 2]` and `[3, 4]` the default `TensorMultiplication` yields the
scalar dot product `11` (shape `[]`), not the rank-2 outer product
(shape `[2, 2]`). -/
theorem C8_tensor_contraction_cex :
    (TensorMultiplication ⟨[2], fun idx => [(1:ℚ), 2].getD (idx.getD 0 0) 0⟩
        ⟨[2], fun idx => [(3:ℚ), 4].getD (idx.getD 0 0) 0⟩).shape = []
    ∧ (TensorMultiplication ⟨[2], fun idx => [(1:ℚ), 2].getD (idx.getD 0 0) 0⟩
        ⟨[2], fun idx => [(3:ℚ), 4].getD (idx.getD 0 0) 0⟩).entry [] = 11
    ∧ ([] : List ℕ) ≠ [2, 2] := by
  refine ⟨rfl, ?_, by decide⟩
  show (∑ t ∈ Finset.range 2,
    [(1:ℚ), 2].getD ((([] : List ℕ).take 0 ++ [t]).getD 0 0) 0 *
      [(3:ℚ), 4].getD ((t :: ([] : List ℕ).drop 0).getD 0 0) 0) = 11
  norm_num [Finset.sum_range_succ]

/-! ### Claim C9: monotonicity of the conditional CDF -/

/-- Tail sum of Bernstein polynomials over ℝ:
`∑_{j=a}^{n} C(n,j) X^j (1-X)^(n-j)`.  For `0 < x < 1` this is the
binomial-tail closed form of the regularized incomplete beta function
`I_x(a, n+1-a)`, the function `betaCdfCore` computes over ℚ. -/
noncomputable def tailP (n a : ℕ) : Polynomial ℝ :=
  ∑ j ∈ Finset.Icc a n, bernsteinPolynomial ℝ n j

theorem tailP_derivative (n a : ℕ) (ha : 1 ≤ a) (han : a ≤ n) :
    Polynomial.derivative (tailP n a)
      = (n : Polynomial ℝ) * bernsteinPolynomial ℝ (n - 1) (a - 1) := by
  unfold tailP
  rw [← Nat.Ico_succ_right, Finset.sum_Ico_eq_sum_range, map_sum]
  have hstep : ∀ i, Polynomial.derivative (bernsteinPolynomial ℝ n (a + i))
      = (n : Polynomial ℝ) * (bernsteinPolynomial ℝ (n - 1) (a - 1 + i)
          - bernsteinPolynomial ℝ (n - 1) (a - 1 + (i + 1))) := by
    intro i
    have hidx : a + i = (a - 1 + i) + 1 := by omega
    have hidx2 : a - 1 + (i + 1) = (a - 1 + i) + 1 := by omega
    rw [hidx, hidx2]
    exact bernsteinPolynomial.derivative_succ ℝ n (a - 1 + i)
  simp only [hstep]
  rw [← Finset.mul_sum,
    Finset.sum_range_sub' (fun i => bernsteinPolynomial ℝ (n - 1) (a - 1 + i))]
  have hlast : a - 1 + (n + 1 - a) = n := by omega
  rw [hlast, bernsteinPolynomial.eq_zero_of_lt ℝ (by omega : n - 1 < n),
    Nat.add_zero, sub_zero]

theorem eval_bernstein_pos (n ν : ℕ) (hν : ν ≤ n) (x : ℝ)
    (hx : 0 < x) (hx1 : x < 1) :
    0 < (bernsteinPolynomial ℝ n ν).eval x := by
  rw [bernsteinPolynomial]
  simp only [Polynomial.eval_mul, Polynomial.eval_pow, Polynomial.eval_natCast,
    Polynomial.eval_sub, Polynomial.eval_one, Polynomial.eval_X]
  have hc : (0 : ℝ) < (n.choose ν : ℝ) := by
    exact_mod_cast Nat.choose_pos hν
  have h1x : (0 : ℝ) < 1 - x := by linarith
  positivity

theorem tailP_strictMonoOn (n a : ℕ) (ha : 1 ≤ a) (han : a ≤ n) :
    StrictMonoOn (fun x : ℝ => (tailP n a).eval x) (Set.Icc 0 1) := by
  apply strictMonoOn_of_deriv_pos (convex_Icc 0 1) (tailP n a).continuousOn
  intro x hx
  rw [interior_Icc, Set.mem_Ioo] at hx
  rw [Polynomial.deriv, tailP_derivative n a ha han]
  simp only [Polynomial.eval_mul, Polynomial.eval_natCast]
  have hn : (0 : ℝ) < (n : ℝ) := by exact_mod_cast Nat.pos_of_ne_zero (by omega)
  exact mul_pos hn (eval_bernstein_pos (n - 1) (a - 1) (by omega) x hx.1 hx.2)

theorem betaCdfCore_cast (a b : ℕ) (x : ℚ) :
    ((betaCdfCore a b x : ℚ) : ℝ) = (tailP (a + b - 1) a).eval (x : ℝ) := by
  rw [betaCdfCore, tailP, Polynomial.eval_finset_sum]
  push_cast
  apply Finset.sum_congr rfl
  intro j _
  rw [bernsteinPolynomial]
  simp only [Polynomial.eval_mul, Polynomial.eval_pow, Polynomial.eval_natCast,
    Polynomial.eval_sub, Polynomial.eval_one, Polynomial.eval_X]

theorem betaCdfCore_mono (a b : ℕ) (ha : 1 ≤ a) {x y : ℚ}
    (hx : 0 ≤ x) (hxy : x ≤ y) (hy : y ≤ 1) :
    betaCdfCore a b x ≤ betaCdfCore a b y := by
  have han : a ≤ a + b - 1 ∨ a + b - 1 < a := le_or_lt _ _
  rcases han with han | han
  · have hmono := (tailP_strictMonoOn (a + b - 1) a ha han).monotoneOn
    have h1 : (x : ℝ) ∈ Set.Icc (0 : ℝ) 1 := by
      constructor <;> exact_mod_cast (by first | exact hx | exact le_trans hxy hy)
    have h2 : (y : ℝ) ∈ Set.Icc (0 : ℝ) 1 := by
      constructor <;> exact_mod_cast (by first | exact le_trans hx hxy | exact hy)
    have := hmono h1 h2 (by exact_mod_cast hxy)
    rw [← Rat.cast_le (K := ℝ), betaCdfCore_cast, betaCdfCore_cast]
    exact this
  · have hempty : Finset.Icc a (a + b - 1) = ∅ := by
      rw [Finset.Icc_eq_empty_iff]
      omega
    rw [betaCdfCore, betaCdfCore, hempty]
    simp

theorem betaCdfCore_nonneg (a b : ℕ) (x : ℚ) (hx : 0 ≤ x) (hx1 : x ≤ 1) :
    0 ≤ betaCdfCore a b x := by
  apply Finset.sum_nonneg
  intro j _
  have h1x : (0 : ℚ) ≤ 1 - x := by linarith
  positivity

theorem betaCdfCore_le_one (a b : ℕ) (x : ℚ) (hx : 0 ≤ x) (hx1 : x ≤ 1) :
    betaCdfCore a b x ≤ 1 := by
  have h1x : (0 : ℚ) ≤ 1 - x := by linarith
  have hsub : Finset.Icc a (a + b - 1) ⊆ Finset.range (a + b - 1 + 1) := by
    intro j hj
    rw [Finset.mem_range]
    exact Nat.lt_succ_of_le (Finset.mem_Icc.mp hj).2
  calc betaCdfCore a b x
      ≤ ∑ j ∈ Finset.range (a + b - 1 + 1),
          ((a + b - 1).choose j : ℚ) * x ^ j * (1 - x) ^ (a + b - 1 - j) := by
        apply Finset.sum_le_sum_of_subset_of_nonneg hsub
        intro j _ _
        positivity
    _ = (x + (1 - x)) ^ (a + b - 1) := by
        rw [add_pow]
        apply Finset.sum_congr rfl
        intro j _
        ring
    _ = 1 := by norm_num

theorem beta_cdf_monotone (a b : ℕ) (ha : 1 ≤ a) :
    Monotone (fun x : ℚ => beta_cdf x a b) := by
  intro x y hxy
  simp only [beta_cdf]
  by_cases hx0 : x ≤ 0
  · rw [if_pos hx0]
    by_cases hy0 : y ≤ 0
    · rw [if_pos hy0]
    · rw [if_neg hy0]
      by_cases hy1 : 1 ≤ y
      · rw [if_pos hy1]; norm_num
      · rw [if_neg hy1]
        exact betaCdfCore_nonneg a b y (by linarith [lt_of_not_ge hy0]) (by linarith [lt_of_not_ge hy1])
  · rw [if_neg hx0]
    have hx0' : 0 < x := lt_of_not_ge hx0
    have hy0 : ¬ y ≤ 0 := by intro h; exact hx0 (le_trans hxy h)
    by_cases hx1 : 1 ≤ x
    · rw [if_pos hx1, if_neg hy0, if_pos (le_trans hx1 hxy)]
    · rw [if_neg hx1]
      by_cases hy1 : 1 ≤ y
      · rw [if_neg hy0, if_pos hy1]
        exact betaCdfCore_le_one a b x (le_of_lt hx0') (by linarith [lt_of_not_ge hx1])
      · rw [if_neg hy0, if_neg hy1]
        exact betaCdfCore_mono a b ha (le_of_lt hx0') hxy (by linarith [lt_of_not_ge hy1])

/-! ### Claim C9: lifting finite values through the NaN layer -/

theorem nzipMul_map_some (xs ys : List ℚ) :
    nzipMul (xs.map some) (ys.map some) = (List.zipWith (· * ·) xs ys).map some := by
  induction xs generalizing ys with
  | nil => simp [nzipMul]
  | cons x xt ih =>
      cases ys with
      | nil => simp [nzipMul]
      | cons y yt => simpa [nzipMul, nmul] using ih yt

theorem nKron_map_some (xs ys : List ℚ) :
    nKron (xs.map some) (ys.map some) = (qKron xs ys).map some := by
  induction xs with
  | nil => simp [nKron, qKron]
  | cons x xt ih =>
      simp only [nKron, qKron, List.map_cons, List.flatMap_cons, List.map_append] at ih ⊢
      rw [ih, List.map_map, List.map_map]
      rfl

theorem nsum_map_some (xs : List ℚ) : nsum (xs.map some) = some xs.sum := by
  induction xs with
  | nil => rfl
  | cons x xt ih => simp [nsum, nadd, List.sum_cons] at ih ⊢; simp [ih]

theorem forall₂_map_of_le {α : Type} (l : List α) (f g : α → ℚ) (h : ∀ x ∈ l, f x ≤ g x) :
    List.Forall₂ (· ≤ ·) (l.map f) (l.map g) := by
  induction l with
  | nil => simp
  | cons x xt ih =>
      simp only [List.map_cons, List.forall₂_cons]
      exact ⟨h x (List.mem_cons_self x xt), ih (fun y hy => h y (List.mem_cons_of_mem x hy))⟩

theorem forall₂_qKron {cs cs' : List ℚ} (bs : List ℚ)
    (h : List.Forall₂ (· ≤ ·) cs cs') (hb : ∀ b ∈ bs, 0 ≤ b) :
    List.Forall₂ (· ≤ ·) (qKron cs bs) (qKron cs' bs) := by
  induction h with
  | nil => simp [qKron]
  | cons hcc _ ih =>
      simp only [qKron, List.flatMap_cons] at ih ⊢
      apply List.rel_append _ ih
      apply forall₂_map_of_le
      intro b hbmem
      exact mul_le_mul_of_nonneg_right hcc (hb b hbmem)

theorem sum_zipWith_mul_le (ws : List ℚ) {ks ks' : List ℚ}
    (hw : ∀ w ∈ ws, 0 ≤ w) (h : List.Forall₂ (· ≤ ·) ks ks') :
    (List.zipWith (· * ·) ws ks).sum ≤ (List.zipWith (· * ·) ws ks').sum := by
  induction h generalizing ws with
  | nil => simp
  | cons hk _ ih =>
      cases ws with
      | nil => simp
      | cons w wt =>
          simp only [List.zipWith_cons_cons, List.sum_cons]
          have hw0 : 0 ≤ w := hw w (List.mem_cons_self w wt)
          exact add_le_add (mul_le_mul_of_nonneg_left hk hw0)
            (ih wt (fun v hv => hw v (List.mem_cons_of_mem w hv)))

theorem sum_zipWith_mul_nonneg (ws ks : List ℚ)
    (hw : ∀ w ∈ ws, 0 ≤ w) (hk : ∀ k ∈ ks, 0 ≤ k) :
    0 ≤ (List.zipWith (· * ·) ws ks).sum := by
  induction ws generalizing ks with
  | nil => simp
  | cons w wt ih =>
      cases ks with
      | nil => simp
      | cons k kt =>
          simp only [List.zipWith_cons_cons, List.sum_cons]
          apply add_nonneg
          · exact mul_nonneg (hw w (List.mem_cons_self w wt)) (hk k (List.mem_cons_self k kt))
          · exact ih kt (fun v hv => hw v (List.mem_cons_of_mem w hv))
              (fun v hv => hk v (List.mem_cons_of_mem k hv))

theorem qKron_nonneg (xs ys : List ℚ) (hx : ∀ x ∈ xs, 0 ≤ x) (hy : ∀ y ∈ ys, 0 ≤ y) :
    ∀ z ∈ qKron xs ys, 0 ≤ z := by
  intro z hz
  rw [qKron, List.mem_flatMap] at hz
  obtain ⟨x, hxmem, hzmem⟩ := hz
  rw [List.mem_map] at hzmem
  obtain ⟨y, hymem, rfl⟩ := hzmem
  exact mul_nonneg (hx x hxmem) (hy y hymem)

theorem cond_density_quantile_denominator_eq (quadO : QuadOracle) (log10O : Log10Oracle)
    (a a_max a_min b_max b_min : ℚ) (deg : ℕ) (deg_vec : List ℕ)
    (w_hat : List QNan) (a_std : QNan) (abs_tol : ℚ) :
    (cond_density_quantile quadO log10O a a_max a_min b_max b_min deg deg_vec
        w_hat a_std abs_tol).denominator
      = if cond_denominator_raw quadO log10O a deg deg_vec a_max a_min a_std abs_tol w_hat
          = some 0 then none
        else cond_denominator_raw quadO log10O a deg deg_vec a_max a_min a_std abs_tol w_hat :=
  rfl

theorem cond_density_quantile_pbeta_eq (quadO : QuadOracle) (log10O : Log10Oracle)
    (a a_max a_min b_max b_min : ℚ) (deg : ℕ) (deg_vec : List ℕ)
    (w_hat : List QNan) (a_std : QNan) (abs_tol : ℚ) :
    (cond_density_quantile quadO log10O a a_max a_min b_max b_min deg deg_vec
        w_hat a_std abs_tol).pbeta
      = pbeta_conditional_density w_hat
          (cond_a_beta_indv quadO log10O a deg deg_vec a_max a_min a_std abs_tol)
          deg deg_vec b_max b_min
          (cond_density_quantile quadO log10O a a_max a_min b_max b_min deg deg_vec
            w_hat a_std abs_tol).denominator :=
  rfl

/-- C9.  For a fixed conditioning value whose computed basis vector is
finite and nonnegative, a weight vector on the probability simplex, and
a finite (hence, by the zero-to-NaN substitution, nonzero) denominator:
if the external `brentq` root finder returns values `r16, r84` inside
the target bounds `[b_min, b_max]` at which the conditional CDF `pbeta`
of `cond_density_quantile` equals 0.16 and 0.84 respectively, then both
roots lie within the declared bounds and the 16th-percentile root is
strictly below the 84th-percentile root. -/
theorem C9_quantile_monotonicity (quadO : QuadOracle) (log10O : Log10Oracle)
    (a a_max a_min b_max b_min : ℚ) (deg : ℕ) (deg_vec : List ℕ)
    (w_hat : List QNan) (a_std : QNan) (abs_tol : ℚ)
    (ws bs : List ℚ) (d0 r16 r84 : ℚ)
    (hw : w_hat = ws.map some)
    (hwnn : ∀ w ∈ ws, 0 ≤ w)
    (hwsum : ws.sum = 1)
    (hb : cond_a_beta_indv quadO log10O a deg deg_vec a_max a_min a_std abs_tol
      = bs.map some)
    (hbnn : ∀ b ∈ bs, 0 ≤ b)
    (hdv : ∀ d ∈ deg_vec, 1 ≤ d)
    (hbounds : b_min < b_max)
    (hden : (cond_density_quantile quadO log10O a a_max a_min b_max b_min deg deg_vec
        w_hat a_std abs_tol).denominator = some d0)
    (hr16lo : b_min ≤ r16) (hr16hi : r16 ≤ b_max)
    (hr84lo : b_min ≤ r84) (hr84hi : r84 ≤ b_max)
    (hF16 : (cond_density_quantile quadO log10O a a_max a_min b_max b_min deg deg_vec
        w_hat a_std abs_tol).pbeta r16 = some (16/100))
    (hF84 : (cond_density_quantile quadO log10O a a_max a_min b_max b_min deg deg_vec
        w_hat a_std abs_tol).pbeta r84 = some (84/100)) :
    b_min ≤ r16 ∧ r16 < r84 ∧ r84 ≤ b_max := by
  have hden' : (if cond_denominator_raw quadO log10O a deg deg_vec a_max a_min a_std
        abs_tol w_hat = some 0 then (none : QNan)
      else cond_denominator_raw quadO log10O a deg deg_vec a_max a_min a_std abs_tol w_hat)
      = some d0 := by
    rw [← cond_density_quantile_denominator_eq quadO log10O a a_max a_min b_max b_min deg
      deg_vec w_hat a_std abs_tol]
    exact hden
  have hrawne : cond_denominator_raw quadO log10O a deg deg_vec a_max a_min a_std abs_tol
      w_hat ≠ some 0 := by
    intro h0
    rw [if_pos h0] at hden'
    exact Option.noConfusion hden'
  have hrawd0 : cond_denominator_raw quadO log10O a deg deg_vec a_max a_min a_std abs_tol
      w_hat = some d0 := by
    rwa [if_neg hrawne] at hden'
  have hd0ne : d0 ≠ 0 := by
    rintro rfl
    exact hrawne hrawd0
  have hrawsum : cond_denominator_raw quadO log10O a deg deg_vec a_max a_min a_std abs_tol
      w_hat = some ((List.zipWith (· * ·) ws
        (qKron (List.replicate (listMax deg_vec) 1) bs)).sum) := by
    rw [cond_denominator_raw, hb, hw,
      show List.replicate (listMax deg_vec) (some (1:ℚ))
          = (List.replicate (listMax deg_vec) (1:ℚ)).map some from
        List.map_replicate.symm,
      nKron_map_some, nzipMul_map_some, nsum_map_some]
  have hd0sum : d0 = (List.zipWith (· * ·) ws
      (qKron (List.replicate (listMax deg_vec) 1) bs)).sum := by
    rw [hrawsum] at hrawd0
    exact (Option.some_injective _ hrawd0).symm
  have hd0pos : 0 < d0 := by
    apply lt_of_le_of_ne _ (Ne.symm hd0ne)
    rw [hd0sum]
    exact sum_zipWith_mul_nonneg ws _ hwnn
      (qKron_nonneg _ _ (fun x hx => by
        rw [List.eq_of_mem_replicate hx]; norm_num) hbnn)
  have hpbeta : ∀ j : ℚ,
      (cond_density_quantile quadO log10O a a_max a_min b_max b_min deg deg_vec
        w_hat a_std abs_tol).pbeta j
      = some ((List.zipWith (· * ·) ws
          (qKron (deg_vec.map (fun d =>
            beta_cdf ((j - b_min) / (b_max - b_min)) d (deg - d + 1))) bs)).sum / d0) := by
    intro j
    rw [cond_density_quantile_pbeta_eq, hden, pbeta_conditional_density,
      show deg_vec.map (fun d =>
          some (beta_cdf ((j - b_min) / (b_max - b_min)) d (deg - d + 1)))
        = (deg_vec.map (fun d =>
            beta_cdf ((j - b_min) / (b_max - b_min)) d (deg - d + 1))).map some from
        (List.map_map _ _ _).symm,
      hb, hw, nKron_map_some, nzipMul_map_some, nsum_map_some, ndiv]
    simp [hd0ne]
  have h16 := hF16
  rw [hpbeta r16] at h16
  have h84 := hF84
  rw [hpbeta r84] at h84
  have h16' := Option.some_injective _ h16
  have h84' := Option.some_injective _ h84
  refine ⟨hr16lo, ?_, hr84hi⟩
  by_contra hcon
  push_neg at hcon
  have hforall : List.Forall₂ (· ≤ ·)
      (deg_vec.map (fun d => beta_cdf ((r84 - b_min) / (b_max - b_min)) d (deg - d + 1)))
      (deg_vec.map (fun d => beta_cdf ((r16 - b_min) / (b_max - b_min)) d (deg - d + 1))) := by
    apply forall₂_map_of_le
    intro d hd
    have harg : (r84 - b_min) / (b_max - b_min) ≤ (r16 - b_min) / (b_max - b_min) :=
      (div_le_div_iff_of_pos_right (sub_pos.mpr hbounds)).mpr (sub_le_sub_right hcon b_min)
    exact beta_cdf_monotone d (deg - d + 1) (hdv d hd) harg
  have hNle := sum_zipWith_mul_le ws hwnn (forall₂_qKron bs hforall hbnn)
  have hled : (84 : ℚ)/100 ≤ 16/100 := by
    rw [← h84', ← h16']
    exact (div_le_div_iff_of_pos_right hd0pos).mpr hNle
  norm_num at hled

/-- C9, witness: one basis function (`deg = 1`, `deg_vec = [1]`), weight
vector `[1]`, conditioning value `1/2` on `[0, 1]` with NaN uncertainty,
target bounds `[0, 1]`.  The conditional CDF reduces to the identity on
`[0, 1]`, so the 0.16 and 0.84 roots are `16/100` and `84/100`, and the
quantile-monotonicity theorem applies. -/
theorem C9_quantile_monotonicity_witness :
    (0 : ℚ) ≤ 16/100 ∧ (16 : ℚ)/100 < 84/100 ∧ (84 : ℚ)/100 ≤ 1 := by
  have hden : (cond_density_quantile (fun _ _ _ _ _ _ _ _ => some 0) (fun _ => some 0)
      (1/2) 1 0 1 0 1 [1] [some 1] none (1/10^8)).denominator = some 1 := by
    rw [cond_density_quantile_denominator_eq]
    norm_num [cond_denominator_raw, cond_a_beta_indv, _find_indv_pdf, _beta_pdf,
      _int_gamma, Nat.factorial, listMax, nKron, nmul, nzipMul, nsum, nadd]
  have hF16 : (cond_density_quantile (fun _ _ _ _ _ _ _ _ => some 0) (fun _ => some 0)
      (1/2) 1 0 1 0 1 [1] [some 1] none (1/10^8)).pbeta (16/100) = some (16/100) := by
    rw [cond_density_quantile_pbeta_eq, hden]
    norm_num [pbeta_conditional_density, cond_a_beta_indv, _find_indv_pdf, _beta_pdf,
      _int_gamma, Nat.factorial, beta_cdf, betaCdfCore, Finset.Icc_self,
      Finset.sum_singleton, nKron, nmul, nzipMul, nsum, nadd, ndiv]
  have hF84 : (cond_density_quantile (fun _ _ _ _ _ _ _ _ => some 0) (fun _ => some 0)
      (1/2) 1 0 1 0 1 [1] [some 1] none (1/10^8)).pbeta (84/100) = some (84/100) := by
    rw [cond_density_quantile_pbeta_eq, hden]
    norm_num [pbeta_conditional_density, cond_a_beta_indv, _find_indv_pdf, _beta_pdf,
      _int_gamma, Nat.factorial, beta_cdf, betaCdfCore, Finset.Icc_self,
      Finset.sum_singleton, nKron, nmul, nzipMul, nsum, nadd, ndiv]
  exact C9_quantile_monotonicity (fun _ _ _ _ _ _ _ _ => some 0) (fun _ => some 0)
    (1/2) 1 0 1 0 1 [1] [some 1] none (1/10^8) [1] [1] 1 (16/100) (84/100)
    rfl (by norm_num) (by norm_num)
    (by norm_num [cond_a_beta_indv, _find_indv_pdf, _beta_pdf, _int_gamma, Nat.factorial])
    (by norm_num) (by norm_num) (by norm_num)
    hden (by norm_num) (by norm_num) (by norm_num) (by norm_num) hF16 hF84

end MRexo
